import Mathlib

/-!
# Connect4-TUI: verification of the board state, viewport fitter and projector

Shallow embedding of `src/main.rs` (the whole game logic lives in the
`App` struct there).

Coordinate representation: every `f64` coordinate the game-state code ever
computes is an exact multiple of 0.1 (the constants 0.5, 1.5, ..., 6.5 and
the radius 0.2, moved by exact additions and subtractions of 1.0), so IEEE
double arithmetic on them is exact and we embed these coordinates as
integers scaled by 10 (fixed-point tenths): 0.5 becomes 5, 6.5 becomes 65,
0.2 becomes 2, and adding 1.0 becomes adding 10.  The Rust cast
`x as usize` (truncation toward zero, saturating at 0 for negatives)
becomes `x.toNat / 10` on tenths.

The viewport fitter `aspect_fit_center` computes with a run-time ratio, so
it is embedded over the exact rationals (every operation it performs on the
values it is actually called with is exact in the model's sense: the claims
about it are containment, divisibility and degeneracy, which are stable
under exact arithmetic).

Fields of the Rust `App` that no claim touches (the `exit` flag and the
`marker` render style) are omitted; everything else keeps its source name.
-/

namespace C4

/-- Colors the program actually manipulates.  The ratatui color type has
many more variants; `other` stands for all of them at once, so that the
wildcard arm of the color-toggling `match` in `add_to_placements` is
represented faithfully. -/
inductive Color
  | yellow
  | red
  | other
deriving DecidableEq

/-- The ratatui canvas `Circle` shape: position, radius (both in
fixed-point tenths) and color. -/
structure Circle where
  x : ℤ
  y : ℤ
  radius : ℤ
  color : Color
deriving DecidableEq

/-- The game-relevant fields of the Rust `App` struct: the active player's
color, the floating piece being aimed (`chip_circle`), and the 7 x 6 board
(`placements`), a list of 7 columns, each a list of 6 optional circles,
index 0 = bottom row. -/
structure App where
  color : Color
  chip_circle : Circle
  placements : List (List (Option Circle))
deriving DecidableEq

/-- `App::new()`: empty board, Yellow starts, floating piece at
(0.5, 6.5) with radius 0.2, i.e. (5, 65) radius 2 in tenths. -/
def App.new : App :=
  { color := Color.yellow
    chip_circle := { x := 5, y := 65, radius := 2, color := Color.yellow }
    placements := List.replicate 7 (List.replicate 6 none) }

/-- The `KeyCode::Right` arm of `handle_key_press`:
if chip_circle.x < 6.5 then chip_circle.x += 1.0. -/
def moveRight (s : App) : App :=
  if s.chip_circle.x < 65 then
    { s with chip_circle := { s.chip_circle with x := s.chip_circle.x + 10 } }
  else s

/-- The `KeyCode::Left` arm of `handle_key_press`:
if chip_circle.x > 0.5 then chip_circle.x -= 1.0. -/
def moveLeft (s : App) : App :=
  if s.chip_circle.x > 5 then
    { s with chip_circle := { s.chip_circle with x := s.chip_circle.x - 10 } }
  else s

/-- The `KeyCode::Char('c')` arm of `handle_key_press`: set the accent
color to Red. -/
def recolorAccent (s : App) : App :=
  { s with color := Color.red }

/-- The color-toggling `match` in `add_to_placements`: Yellow and Red swap,
anything else is left alone (the wildcard `_ => {}` arm). -/
def toggleColor : Color → Color
  | Color.yellow => Color.red
  | Color.red => Color.yellow
  | c => c

/-- Index of the first `None` slot of a column, scanning bottom-up exactly
as the Rust `for (i, chip) in ... .iter_mut().enumerate()` loop does. -/
def firstNoneIdx : List (Option Circle) → Option ℕ
  | [] => none
  | none :: _ => some 0
  | some _ :: rest => (firstNoneIdx rest).map (· + 1)

/-- The `match i` table in `add_to_placements` that sets `chip_circle.y`
before the placed chip is cloned: slot i in 0..=5 gets y = i + 0.5 (in
tenths, 10 i + 5); any other i hits the `_ => break` arm, encoded as
`none`. -/
def dropY : ℕ → Option ℤ
  | 0 => some 5
  | 1 => some 15
  | 2 => some 25
  | 3 => some 35
  | 4 => some 45
  | 5 => some 55
  | _ => none

/-- `let selected_col = self.chip_circle.x as usize;` — the saturating
float-to-usize cast, on tenths. -/
def selectedCol (s : App) : ℕ := s.chip_circle.x.toNat / 10

/-- `App::add_to_placements`: find the first empty slot of the selected
column (bottom-up); if there is one, place a clone of the floating piece
there (with its y set by the slot index), toggle the active color, and
reset the floating piece to (0.5, 6.5) radius 0.2 in the new color; if the
column is full the loop finds nothing and the state is untouched.  The
Rust code indexes `self.placements[selected_col]` directly, which would
panic out of bounds; the embedding reads the column with a `[]` default,
and we prove separately (claim C10) that the index is always in bounds on
reachable states, so the default is never exercised there. -/
def add_to_placements (s : App) : App :=
  match firstNoneIdx (s.placements.getD (selectedCol s) []) with
  | none => s
  | some i =>
    match dropY i with
    | none => s
    | some yv =>
      { color := toggleColor s.color
        chip_circle := { x := 5, y := 65, radius := 2, color := toggleColor s.color }
        placements := s.placements.set (selectedCol s)
          ((s.placements.getD (selectedCol s) []).set i
            (some { s.chip_circle with y := yv })) }

/-- The input events the key handler reacts to with a state change
(quit only flips the omitted exit flag). -/
inductive Op
  | left
  | right
  | drop
  | recolor
deriving DecidableEq

/-- One step of `handle_key_press`. -/
def applyOp (s : App) : Op → App
  | Op.left => moveLeft s
  | Op.right => moveRight s
  | Op.drop => add_to_placements s
  | Op.recolor => recolorAccent s

/-- A whole input sequence, applied in order. -/
def applyOps (s : App) (ops : List Op) : App := ops.foldl applyOp s

/-! ## The render projector (`App::c4_canvas`)

The paint closure issues draw calls in a fixed order; we record them as a
list of abstract shapes, again with coordinates in fixed-point tenths
(the logical grid spans x in 0..7, y in 0..6, i.e. 0..70 and 0..60 in
tenths). -/

/-- An abstract draw command: the canvas shapes the paint closure emits. -/
inductive Shape
  | rectangle (x y width height : ℤ) (c : Color)
  | line (x1 y1 x2 y2 : ℤ) (c : Color)
  | circle (c : Circle)
deriving DecidableEq

/-- The draw calls of the paint closure in `App::c4_canvas`, in source
order: the background rectangle over the full grid, the 8 vertical lines
(x = 0..=7), the 7 horizontal lines (y = 0..=6), the floating piece, and
then one circle per occupied cell, columns left to right, each column
bottom to top (`iter().flatten()` skips the empty slots). -/
def c4_canvas (s : App) : List Shape :=
  Shape.rectangle 0 0 70 60 s.color ::
    (((List.range 8).map fun x => Shape.line (10 * (x : ℤ)) 0 (10 * (x : ℤ)) 60 s.color)
      ++ ((List.range 7).map fun y => Shape.line 0 (10 * (y : ℤ)) 70 (10 * (y : ℤ)) s.color)
      ++ [Shape.circle s.chip_circle]
      ++ (s.placements.map fun col => (col.filterMap id).map Shape.circle).flatten)

/-- The draw order claimed by the specification: background, grid lines,
then the occupied cells, and the floating piece last.  (The code actually
draws the floating piece before the occupied cells; this predicate exists
to compare the claim against the code.) -/
def claimedCanvasOrder (s : App) : Prop :=
  c4_canvas s =
    Shape.rectangle 0 0 70 60 s.color ::
      (((List.range 8).map fun x => Shape.line (10 * (x : ℤ)) 0 (10 * (x : ℤ)) 60 s.color)
        ++ ((List.range 7).map fun y => Shape.line 0 (10 * (y : ℤ)) 70 (10 * (y : ℤ)) s.color)
        ++ (s.placements.map fun col => (col.filterMap id).map Shape.circle).flatten
        ++ [Shape.circle s.chip_circle])

/-! ## The viewport fitter (`App::aspect_fit_center`)

Embedded over the exact rationals; the terminal rectangle coordinates are
natural numbers (the Rust `u16` values).  The Rust `raw.floor() as u16`
cast saturates below at 0 (here `Int.toNat`); its upper clamp at 65535
never binds because the floored value is bounded by the input width or
height, themselves `u16` values.  `saturating_sub` is natural
subtraction. -/

/-- A ratatui `Rect`: origin and size in terminal character cells. -/
structure Rect where
  x : ℕ
  y : ℕ
  width : ℕ
  height : ℕ
deriving DecidableEq

/-- `avail_w / avail_h`, the aspect of the available area. -/
def areaRatio (inner : Rect) : ℚ := (inner.width : ℚ) / (inner.height : ℚ)

/-- The ideal (unsnapped) fitted width: limited by height when the area is
wider than the target ratio, otherwise the full available width. -/
def rawW (inner : Rect) (ratio_w_over_h : ℚ) : ℚ :=
  if areaRatio inner > ratio_w_over_h then ratio_w_over_h * (inner.height : ℚ)
  else (inner.width : ℚ)

/-- The ideal (unsnapped) fitted height, the companion of `rawW`. -/
def rawH (inner : Rect) (ratio_w_over_h : ℚ) : ℚ :=
  if areaRatio inner > ratio_w_over_h then (inner.height : ℚ)
  else (inner.width : ℚ) / ratio_w_over_h

/-- `(raw_w.floor() as u16 / cols) * cols`: floor, saturating cast, then
round down to a multiple of `cols` by integer division. -/
def snappedW (inner : Rect) (cols : ℕ) (ratio_w_over_h : ℚ) : ℕ :=
  (⌊rawW inner ratio_w_over_h⌋.toNat / cols) * cols

/-- `(raw_h.floor() as u16 / rows) * rows`. -/
def snappedH (inner : Rect) (rows : ℕ) (ratio_w_over_h : ℚ) : ℕ :=
  (⌊rawH inner ratio_w_over_h⌋.toNat / rows) * rows

/-- `App::aspect_fit_center` (the function ignores `self` entirely, so the
embedding takes no state argument): degenerate input gives a zero-size
rectangle at the origin of `inner`; otherwise the aspect-fitted size is
snapped to multiples of the grid, a zero snapped dimension again gives the
degenerate rectangle, and otherwise the snapped rectangle is centered in
`inner` by flooring half the leftover on each axis. -/
def aspect_fit_center (inner : Rect) (cols rows : ℕ) (ratio_w_over_h : ℚ) : Rect :=
  if inner.width = 0 ∨ inner.height = 0 then ⟨inner.x, inner.y, 0, 0⟩
  else if snappedW inner cols ratio_w_over_h = 0 ∨ snappedH inner rows ratio_w_over_h = 0 then
    ⟨inner.x, inner.y, 0, 0⟩
  else
    ⟨inner.x + (inner.width - snappedW inner cols ratio_w_over_h) / 2,
     inner.y + (inner.height - snappedH inner rows ratio_w_over_h) / 2,
     snappedW inner cols ratio_w_over_h, snappedH inner rows ratio_w_over_h⟩

/-- Containment of one rectangle in another (no overflow: coordinates are
naturals and the sums are exact). -/
def containedIn (res outer : Rect) : Prop :=
  outer.x ≤ res.x ∧ outer.y ≤ res.y ∧
    res.x + res.width ≤ outer.x + outer.width ∧
    res.y + res.height ≤ outer.y + outer.height

/-! ## Invariants of the reachable game states -/

/-- A column has no empty slot below an occupied one: scanning bottom-up,
once a `none` appears everything above it is `none`. -/
def noFloating : List (Option Circle) → Bool
  | [] => true
  | some _ :: rest => noFloating rest
  | none :: rest => rest.all fun cell => cell = none

/-- The board keeps its 7 x 6 shape. -/
def colsOk (s : App) : Prop :=
  s.placements.length = 7 ∧ ∀ col ∈ s.placements, col.length = 6

/-- The floating piece sits at a column center strictly above the grid,
with its original radius: x = k + 0.5 for some column k in 0..6, y = 6.5,
radius 0.2 (in tenths: 10 k + 5, 65, 2). -/
def chipOk (s : App) : Prop :=
  ∃ k : ℕ, k ≤ 6 ∧ s.chip_circle.x = 10 * (k : ℤ) + 5 ∧
    s.chip_circle.y = 65 ∧ s.chip_circle.radius = 2

/-- Every column of the board satisfies `noFloating`. -/
def boardOk (s : App) : Prop :=
  ∀ col ∈ s.placements, noFloating col = true

/-- The active color is one of the two player colors. -/
def colorOk (s : App) : Prop :=
  s.color = Color.yellow ∨ s.color = Color.red

/-- Every placed chip sits at the center of its cell: the chip stored at
column c, row r has x = c + 0.5 and y = r + 0.5 (and radius 0.2). -/
def chipPosOk (s : App) : Prop :=
  ∀ c r chip, (s.placements.getD c []).getD r none = some chip →
    chip.x = 10 * (c : ℤ) + 5 ∧ chip.y = 10 * (r : ℤ) + 5 ∧ chip.radius = 2

/-- The full invariant of reachable states. -/
def Good (s : App) : Prop :=
  colsOk s ∧ chipOk s ∧ boardOk s ∧ colorOk s ∧ chipPosOk s

/-! ## Helper lemmas: columns, lookups, the invariant -/

theorem getD_set_self {α : Type _} {l : List α} {i : ℕ} (hi : i < l.length) (a d : α) :
    (l.set i a).getD i d = a := by
  rw [List.getD_eq_getElem?_getD, List.getElem?_set_self hi]
  rfl

theorem getD_set_ne {α : Type _} {l : List α} {i j : ℕ} (hij : i ≠ j) (a d : α) :
    (l.set i a).getD j d = l.getD j d := by
  rw [List.getD_eq_getElem?_getD, List.getElem?_set_ne hij, ← List.getD_eq_getElem?_getD]

theorem getD_mem {α : Type _} {l : List α} {i : ℕ} (hi : i < l.length) (d : α) :
    l.getD i d ∈ l := by
  rw [List.getD_eq_getElem?_getD, List.getElem?_eq_getElem hi]
  exact List.getElem_mem hi

theorem firstNoneIdx_lt_length {col : List (Option Circle)} {i : ℕ}
    (h : firstNoneIdx col = some i) : i < col.length := by
  induction col generalizing i with
  | nil => exact absurd h (by simp [firstNoneIdx])
  | cons hd tl ih =>
    cases hd with
    | none =>
      have hi : i = 0 := by
        have := h
        simp [firstNoneIdx] at this
        omega
      simp [hi]
    | some c =>
      rw [firstNoneIdx] at h
      cases hfi : firstNoneIdx tl with
      | none => rw [hfi] at h; simp at h
      | some j =>
        rw [hfi] at h
        simp at h
        have := ih hfi
        simp [List.length_cons]
        omega

theorem firstNoneIdx_eq_none {col : List (Option Circle)}
    (h : ∀ cell ∈ col, cell ≠ none) : firstNoneIdx col = none := by
  induction col with
  | nil => rfl
  | cons hd tl ih =>
    cases hd with
    | none => exact absurd rfl (h none (by simp))
    | some c =>
      rw [firstNoneIdx, ih fun cell hc => h cell (List.mem_cons_of_mem _ hc)]
      rfl

theorem all_none_getD {col : List (Option Circle)}
    (h : col.all (fun cell => cell = none) = true) (j : ℕ) :
    col.getD j none = none := by
  induction col generalizing j with
  | nil => simp
  | cons hd tl ih =>
    simp at h
    cases j with
    | zero => simpa using h.1
    | succ j' => simpa using ih (by simpa using h.2) j'

theorem noFloating_of_all_none {col : List (Option Circle)}
    (h : col.all (fun cell => cell = none) = true) :
    noFloating col = true := by
  cases col with
  | nil => rfl
  | cons hd tl =>
    simp at h
    rw [h.1, noFloating]
    simpa using h.2

theorem noFloating_mono {col : List (Option Circle)} (hnf : noFloating col = true)
    {i j : ℕ} (hij : i ≤ j) (hi : col.getD i none = none) :
    col.getD j none = none := by
  induction col generalizing i j with
  | nil => simp
  | cons hd tl ih =>
    cases hd with
    | some c =>
      rw [noFloating] at hnf
      cases i with
      | zero => simp at hi
      | succ i' =>
        cases j with
        | zero => omega
        | succ j' =>
          simp only [List.getD_cons_succ] at hi ⊢
          exact ih hnf (by omega) hi
    | none =>
      rw [noFloating] at hnf
      cases j with
      | zero => simp
      | succ j' =>
        simpa [List.getD_cons_succ] using all_none_getD hnf j'

theorem noFloating_set {col : List (Option Circle)} {i : ℕ} (ch : Circle)
    (hnf : noFloating col = true) (hfi : firstNoneIdx col = some i) :
    noFloating (col.set i (some ch)) = true := by
  induction col generalizing i with
  | nil => exact absurd hfi (by simp [firstNoneIdx])
  | cons hd tl ih =>
    cases hd with
    | none =>
      have hi : i = 0 := by
        have := hfi
        simp [firstNoneIdx] at this
        omega
      subst hi
      rw [List.set_cons_zero, noFloating]
      rw [noFloating] at hnf
      exact noFloating_of_all_none hnf
    | some c =>
      rw [firstNoneIdx] at hfi
      cases hfi2 : firstNoneIdx tl with
      | none => rw [hfi2] at hfi; simp at hfi
      | some j =>
        rw [hfi2] at hfi
        simp at hfi
        rw [← hfi, List.set_cons_succ, noFloating]
        rw [noFloating] at hnf
        exact ih hnf hfi2

theorem dropY_eq {i : ℕ} (hi : i < 6) : dropY i = some (10 * (i : ℤ) + 5) := by
  interval_cases i <;> decide

theorem selectedCol_eq {s : App} {k : ℕ} (hk : s.chip_circle.x = 10 * (k : ℤ) + 5) :
    selectedCol s = k := by
  unfold selectedCol
  rw [hk]
  have hcast : (10 * (k : ℤ) + 5) = ((10 * k + 5 : ℕ) : ℤ) := by push_cast; ring
  rw [hcast, Int.toNat_natCast]
  omega

theorem getD_replicate_cases {α : Type _} (n : ℕ) (a d : α) (i : ℕ) :
    (List.replicate n a).getD i d = a ∨ (List.replicate n a).getD i d = d := by
  rw [List.getD_eq_getElem?_getD, List.getElem?_replicate]
  split <;> simp

theorem getD_replicate_none (n i : ℕ) :
    (List.replicate n (none : Option Circle)).getD i none = none := by
  rcases getD_replicate_cases n (none : Option Circle) none i with h | h <;> exact h

theorem boardOk_getD {s : App} (h : boardOk s) (c : ℕ) :
    noFloating (s.placements.getD c []) = true := by
  by_cases hc : c < s.placements.length
  · exact h _ (getD_mem hc [])
  · rw [List.getD_eq_getElem?_getD, List.getElem?_eq_none (by omega)]
    rfl

/-! ## The invariant holds on every reachable state -/

theorem good_new : Good App.new := by
  refine ⟨⟨rfl, ?_⟩, ⟨0, by omega, by decide, by decide, by decide⟩, ?_, Or.inl rfl, ?_⟩
  · intro col hcol
    rw [List.eq_of_mem_replicate hcol]
    rfl
  · intro col hcol
    rw [List.eq_of_mem_replicate hcol]
    decide
  · intro c r chip hchip
    have hpl : App.new.placements = List.replicate 7 (List.replicate 6 none) := rfl
    rw [hpl] at hchip
    rcases getD_replicate_cases 7 (List.replicate 6 (none : Option Circle)) [] c with hcol | hcol <;>
      rw [hcol] at hchip
    · rw [getD_replicate_none] at hchip
      exact absurd hchip (by simp)
    · exact absurd hchip (by simp)

theorem good_chip_update {s : App} (h : Good s) {ch : Circle}
    (hch : ∃ k : ℕ, k ≤ 6 ∧ ch.x = 10 * (k : ℤ) + 5 ∧ ch.y = 65 ∧ ch.radius = 2) :
    Good { s with chip_circle := ch } :=
  ⟨h.1, hch, h.2.2.1, h.2.2.2.1, h.2.2.2.2⟩

theorem good_moveRight {s : App} (h : Good s) : Good (moveRight s) := by
  unfold moveRight
  split
  · rename_i hlt
    obtain ⟨k, hk, hx, hy, hr⟩ := h.2.1
    rw [hx] at hlt
    have hk6 : k < 6 := by omega
    exact good_chip_update h ⟨k + 1, by omega, by rw [hx]; push_cast; ring, hy, hr⟩
  · exact h

theorem good_moveLeft {s : App} (h : Good s) : Good (moveLeft s) := by
  unfold moveLeft
  split
  · rename_i hlt
    obtain ⟨k, hk, hx, hy, hr⟩ := h.2.1
    rw [hx] at hlt
    have hk1 : 1 ≤ k := by omega
    refine good_chip_update h ⟨k - 1, by omega, ?_, hy, hr⟩
    rw [hx]
    push_cast [hk1]
    ring
  · exact h

theorem good_recolor {s : App} (h : Good s) : Good (recolorAccent s) :=
  ⟨h.1, h.2.1, h.2.2.1, Or.inr rfl, h.2.2.2.2⟩

theorem good_add {s : App} (h : Good s) : Good (add_to_placements s) := by
  obtain ⟨⟨h7, hlen⟩, ⟨k, hk, hx, hy, hr⟩, hboard, hcolor, hpos⟩ := h
  have hsel : selectedCol s = k := selectedCol_eq hx
  have hkl : k < s.placements.length := by omega
  have hmem : s.placements.getD k [] ∈ s.placements := getD_mem hkl []
  have hcl : (s.placements.getD k []).length = 6 := hlen _ hmem
  unfold add_to_placements
  rw [hsel]
  split
  · exact ⟨⟨h7, hlen⟩, ⟨k, hk, hx, hy, hr⟩, hboard, hcolor, hpos⟩
  · rename_i i hfi
    split
    · exact ⟨⟨h7, hlen⟩, ⟨k, hk, hx, hy, hr⟩, hboard, hcolor, hpos⟩
    rename_i yv hyv
    have hi6 : i < 6 := by have := firstNoneIdx_lt_length hfi; omega
    have hyv' : yv = 10 * (i : ℤ) + 5 := by
      have hd := dropY_eq hi6
      rw [hyv] at hd
      exact Option.some_inj.mp hd
    refine ⟨⟨?_, ?_⟩, ⟨0, by omega, rfl, rfl, rfl⟩, ?_, ?_, ?_⟩
    · simpa using h7
    · intro col' hcol'
      rcases List.mem_or_eq_of_mem_set hcol' with hmem' | hnew
      · exact hlen _ hmem'
      · rw [hnew, List.length_set]
        exact hcl
    · intro col' hcol'
      rcases List.mem_or_eq_of_mem_set hcol' with hmem' | hnew
      · exact hboard _ hmem'
      · rw [hnew]
        exact noFloating_set _ (hboard _ hmem) hfi
    · rcases hcolor with hc | hc <;> simp [colorOk, hc, toggleColor]
    · intro c' r chip hchip
      by_cases hck : c' = k
      · subst hck
        rw [getD_set_self hkl] at hchip
        by_cases hri : r = i
        · subst hri
          rw [getD_set_self (by omega) _ none] at hchip
          have hchip' : chip = { s.chip_circle with y := yv } :=
            (Option.some_inj.mp hchip).symm
          rw [hchip', hyv']
          exact ⟨hx, rfl, hr⟩
        · rw [getD_set_ne (fun he => hri he.symm) _ none] at hchip
          exact hpos c' r chip hchip
      · rw [getD_set_ne (fun he => hck he.symm) _ []] at hchip
        exact hpos c' r chip hchip

theorem good_applyOp {s : App} (h : Good s) (op : Op) : Good (applyOp s op) := by
  cases op with
  | left => exact good_moveLeft h
  | right => exact good_moveRight h
  | drop => exact good_add h
  | recolor => exact good_recolor h

theorem good_applyOps (ops : List Op) : Good (applyOps App.new ops) := by
  suffices hgen : ∀ s, Good s → Good (applyOps s ops) from hgen _ good_new
  induction ops with
  | nil => exact fun s hs => hs
  | cons op rest ih => exact fun s hs => ih _ (good_applyOp hs op)

/-- On a successful (state-changing) drop the active color is toggled. -/
theorem add_color_of_ne {s : App} (h : add_to_placements s ≠ s) :
    (add_to_placements s).color = toggleColor s.color := by
  unfold add_to_placements
  split
  · rename_i heq
    exact absurd (by unfold add_to_placements; simp only [heq]) h
  · rename_i i heq
    split
    · rename_i hyv
      exact absurd (by unfold add_to_placements; simp only [heq, hyv]) h
    · rfl

/-! ## The claims -/

/-- Claim C1: along every input sequence from the empty board, no column of
the board ever holds an Empty cell below a non-Empty cell: if the cell at
height j of column c is occupied, so is every cell below it (drops always
fill the lowest empty slot). -/
theorem drops_fill_lowest (ops : List Op) (c i j : ℕ) (hij : i < j)
    (hj : ((applyOps App.new ops).placements.getD c []).getD j none ≠ none) :
    ((applyOps App.new ops).placements.getD c []).getD i none ≠ none := by
  intro hi
  exact hj (noFloating_mono (boardOk_getD (good_applyOps ops).2.2.1 c) (le_of_lt hij) hi)

/-- Witness for C1: after two drops into column 0, cell 1 is occupied and
the theorem yields that cell 0 is occupied. -/
theorem drops_fill_lowest_witness :
    (0 : ℕ) < 1 ∧
      ((applyOps App.new [Op.drop, Op.drop]).placements.getD 0 []).getD 1 none ≠ none ∧
      ((applyOps App.new [Op.drop, Op.drop]).placements.getD 0 []).getD 0 none ≠ none :=
  ⟨Nat.zero_lt_one, by decide,
    drops_fill_lowest [Op.drop, Op.drop] 0 0 1 Nat.zero_lt_one (by decide)⟩

/-- Claim C2: when the targeted column already holds 6 occupied cells,
a drop is a perfect no-op: the whole state (board, active color, floating
piece) is returned unchanged, and nothing fails. -/
theorem drop_full_noop (s : App)
    (_hlen : (s.placements.getD (selectedCol s) []).length = 6)
    (hfull : ∀ cell ∈ s.placements.getD (selectedCol s) [], cell ≠ none) :
    add_to_placements s = s := by
  unfold add_to_placements
  rw [firstNoneIdx_eq_none hfull]

/-- Witness for C2: six drops fill column 0; a seventh drop leaves the
state untouched. -/
theorem drop_full_noop_witness :
    ((applyOps App.new (List.replicate 6 Op.drop)).placements.getD
        (selectedCol (applyOps App.new (List.replicate 6 Op.drop))) []).length = 6 ∧
      (∀ cell ∈ (applyOps App.new (List.replicate 6 Op.drop)).placements.getD
          (selectedCol (applyOps App.new (List.replicate 6 Op.drop))) [], cell ≠ none) ∧
      add_to_placements (applyOps App.new (List.replicate 6 Op.drop)) =
        applyOps App.new (List.replicate 6 Op.drop) :=
  ⟨by decide, by decide, drop_full_noop _ (by decide) (by decide)⟩

/-- Claim C3: on every reachable state, a successful (non-no-op) drop
flips the active color between exactly Yellow and Red (it never keeps the
color it had), and a no-op drop leaves the color unchanged. -/
theorem turn_alternation (ops : List Op) :
    (add_to_placements (applyOps App.new ops) ≠ applyOps App.new ops →
      ((applyOps App.new ops).color = Color.yellow ∧
        (add_to_placements (applyOps App.new ops)).color = Color.red) ∨
      ((applyOps App.new ops).color = Color.red ∧
        (add_to_placements (applyOps App.new ops)).color = Color.yellow)) ∧
    (add_to_placements (applyOps App.new ops) = applyOps App.new ops →
      (add_to_placements (applyOps App.new ops)).color = (applyOps App.new ops).color) := by
  constructor
  · intro hne
    have htog := add_color_of_ne hne
    rcases (good_applyOps ops).2.2.2.1 with hc | hc
    · exact Or.inl ⟨hc, by rw [htog, hc]; rfl⟩
    · exact Or.inr ⟨hc, by rw [htog, hc]; rfl⟩
  · intro heq
    rw [heq]

/-- Witness for C3: the first drop of the game succeeds and flips the
color from Yellow to Red. -/
theorem turn_alternation_witness :
    ((applyOps App.new []).color = Color.yellow ∧
      (add_to_placements (applyOps App.new [])).color = Color.red) ∨
    ((applyOps App.new []).color = Color.red ∧
      (add_to_placements (applyOps App.new [])).color = Color.yellow) :=
  (turn_alternation []).1 (by decide)

/-- Claim C7: from a floating column k in 0..6 (x = k + 0.5, i.e.
10 k + 5 in tenths), moving right lands on column min(k+1, 6) and moving
left on column max(k-1, 0); at the bounds the whole state is unchanged. -/
theorem move_clamped (s : App) (k : ℕ) (hk : k ≤ 6)
    (hx : s.chip_circle.x = 10 * (k : ℤ) + 5) :
    (moveRight s).chip_circle.x = 10 * min ((k : ℤ) + 1) 6 + 5 ∧
    (moveLeft s).chip_circle.x = 10 * max ((k : ℤ) - 1) 0 + 5 ∧
    (k = 6 → moveRight s = s) ∧
    (k = 0 → moveLeft s = s) := by
  refine ⟨?_, ?_, fun hk6 => ?_, fun hk0 => ?_⟩
  · unfold moveRight
    split
    · rename_i hlt
      rw [hx] at hlt
      show s.chip_circle.x + 10 = 10 * min ((k : ℤ) + 1) 6 + 5
      rw [hx]
      omega
    · rename_i hlt
      rw [hx] at hlt
      rw [hx]
      omega
  · unfold moveLeft
    split
    · rename_i hlt
      rw [hx] at hlt
      show s.chip_circle.x - 10 = 10 * max ((k : ℤ) - 1) 0 + 5
      rw [hx]
      omega
    · rename_i hlt
      rw [hx] at hlt
      rw [hx]
      omega
  · subst hk6
    unfold moveRight
    rw [hx, if_neg (by omega)]
  · subst hk0
    unfold moveLeft
    rw [hx, if_neg (by omega)]

/-- Witness for C7: with the floating piece at the right edge (column 6),
moving right is a no-op and moving left reaches column 5. -/
theorem move_clamped_witness :
    (6 : ℕ) ≤ 6 ∧
      (applyOps App.new (List.replicate 6 Op.right)).chip_circle.x = 10 * ((6 : ℕ) : ℤ) + 5 ∧
      ((moveRight (applyOps App.new (List.replicate 6 Op.right))).chip_circle.x =
          10 * min (((6 : ℕ) : ℤ) + 1) 6 + 5 ∧
        (moveLeft (applyOps App.new (List.replicate 6 Op.right))).chip_circle.x =
          10 * max (((6 : ℕ) : ℤ) - 1) 0 + 5 ∧
        ((6 : ℕ) = 6 → moveRight (applyOps App.new (List.replicate 6 Op.right)) =
          applyOps App.new (List.replicate 6 Op.right)) ∧
        ((6 : ℕ) = 0 → moveLeft (applyOps App.new (List.replicate 6 Op.right)) =
          applyOps App.new (List.replicate 6 Op.right))) :=
  ⟨le_refl 6, by decide, move_clamped _ 6 (le_refl 6) (by decide)⟩

/-- Claim C9: every successful (non-no-op) drop resets the floating piece
to the canonical aiming position: column 0 (x = 0.5), above the grid
(y = 6.5), radius 0.2, in the new active player's color. -/
theorem drop_resets_floating (s : App) (h : add_to_placements s ≠ s) :
    (add_to_placements s).chip_circle =
      { x := 5, y := 65, radius := 2, color := (add_to_placements s).color } ∧
    (add_to_placements s).color = toggleColor s.color := by
  unfold add_to_placements
  split
  · rename_i heq
    exact absurd (by unfold add_to_placements; simp only [heq]) h
  · rename_i i heq
    split
    · rename_i hyv
      exact absurd (by unfold add_to_placements; simp only [heq, hyv]) h
    · exact ⟨rfl, rfl⟩

/-- Witness for C9: the first drop of the game resets the floating piece
to (0.5, 6.5) radius 0.2 in Red. -/
theorem drop_resets_floating_witness :
    (add_to_placements App.new).chip_circle =
      { x := 5, y := 65, radius := 2, color := (add_to_placements App.new).color } ∧
    (add_to_placements App.new).color = toggleColor App.new.color :=
  drop_resets_floating App.new (by decide)

/-- Claim C10: on every reachable state the floating piece's x is
k + 0.5 for a column index k in 0..6, so the truncating cast used by the
drop selects a valid column of the 7-column board (length 7, the column
has the full 6 slots), and any slot the drop loop can find is in 0..5, so
the fallthrough break arm of the slot match is unreachable. -/
theorem drop_index_safe (ops : List Op) :
    ∃ k : ℕ, k ≤ 6 ∧ (applyOps App.new ops).chip_circle.x = 10 * (k : ℤ) + 5 ∧
      selectedCol (applyOps App.new ops) = k ∧
      (applyOps App.new ops).placements.length = 7 ∧
      ((applyOps App.new ops).placements.getD k []).length = 6 ∧
      ∀ i, firstNoneIdx ((applyOps App.new ops).placements.getD k []) = some i →
        i < 6 ∧ dropY i ≠ none := by
  obtain ⟨⟨h7, hlen⟩, ⟨k, hk, hx, hy, hr⟩, _, _, _⟩ := good_applyOps ops
  have hl6 : ((applyOps App.new ops).placements.getD k []).length = 6 :=
    hlen _ (getD_mem (by omega) [])
  refine ⟨k, hk, hx, selectedCol_eq hx, h7, hl6, ?_⟩
  intro i hfi
  have hi := firstNoneIdx_lt_length hfi
  rw [hl6] at hi
  refine ⟨hi, ?_⟩
  rw [dropY_eq hi]
  simp

/-- Witness for C10: the invariant instantiated at the initial state. -/
theorem drop_index_safe_witness :
    ∃ k : ℕ, k ≤ 6 ∧ (applyOps App.new []).chip_circle.x = 10 * (k : ℤ) + 5 ∧
      selectedCol (applyOps App.new []) = k ∧
      (applyOps App.new []).placements.length = 7 ∧
      ((applyOps App.new []).placements.getD k []).length = 6 ∧
      ∀ i, firstNoneIdx ((applyOps App.new []).placements.getD k []) = some i →
        i < 6 ∧ dropY i ≠ none :=
  drop_index_safe []

/-- Claim C6, counterexample: the paint closure draws the floating piece
before the occupied cells, so after the first drop (one occupied cell) the
draw list does not end with the floating piece as the claimed order says. -/
theorem canvas_order_counterexample :
    ¬ claimedCanvasOrder (applyOps App.new [Op.drop]) := by
  unfold claimedCanvasOrder
  decide

/-- Claim C6 as amended: the projector emits, in order, one background
rectangle over the full grid, 8 vertical and 7 horizontal unit-spaced grid
lines, then exactly one circle for the floating piece (above the grid at
the floating column's center: x = k + 0.5, y = 6.5 for some k in 0..6),
and finally one circle per occupied cell, each at its cell's center
(x = column + 0.5, y = row + 0.5, row 0 at the bottom). -/
theorem c4_canvas_order (ops : List Op) :
    c4_canvas (applyOps App.new ops) =
      Shape.rectangle 0 0 70 60 (applyOps App.new ops).color ::
        (((List.range 8).map fun x =>
            Shape.line (10 * (x : ℤ)) 0 (10 * (x : ℤ)) 60 (applyOps App.new ops).color)
          ++ ((List.range 7).map fun y =>
            Shape.line 0 (10 * (y : ℤ)) 70 (10 * (y : ℤ)) (applyOps App.new ops).color)
          ++ [Shape.circle (applyOps App.new ops).chip_circle]
          ++ ((applyOps App.new ops).placements.map fun col =>
            (col.filterMap id).map Shape.circle).flatten) ∧
    (∃ k : ℕ, k ≤ 6 ∧ (applyOps App.new ops).chip_circle.x = 10 * (k : ℤ) + 5 ∧
      (applyOps App.new ops).chip_circle.y = 65) ∧
    (∀ c r chip, ((applyOps App.new ops).placements.getD c []).getD r none = some chip →
      chip.x = 10 * (c : ℤ) + 5 ∧ chip.y = 10 * (r : ℤ) + 5) := by
  obtain ⟨_, ⟨k, hk, hx, hy, _⟩, _, _, hpos⟩ := good_applyOps ops
  exact ⟨rfl, ⟨k, hk, hx, hy⟩,
    fun c r chip h => ⟨(hpos c r chip h).1, (hpos c r chip h).2.1⟩⟩

/-! ## The viewport fitter claims -/

theorem rawW_le (inner : Rect) {q : ℚ} (hh : inner.height ≠ 0) :
    rawW inner q ≤ (inner.width : ℚ) := by
  unfold rawW areaRatio
  split
  · rename_i hgt
    have hh' : (0 : ℚ) < inner.height := by exact_mod_cast Nat.pos_of_ne_zero hh
    exact le_of_lt ((lt_div_iff₀ hh').mp hgt)
  · exact le_refl _

theorem rawH_le (inner : Rect) {q : ℚ} (hq : 0 < q) (hh : inner.height ≠ 0) :
    rawH inner q ≤ (inner.height : ℚ) := by
  unfold rawH areaRatio
  split
  · exact le_refl _
  · rename_i hle
    push_neg at hle
    have hh' : (0 : ℚ) < inner.height := by exact_mod_cast Nat.pos_of_ne_zero hh
    exact (div_le_iff₀ hq).mpr (by linarith [(div_le_iff₀ hh').mp hle])

theorem snappedW_le (inner : Rect) (cols : ℕ) {q : ℚ} (hh : inner.height ≠ 0) :
    snappedW inner cols q ≤ inner.width := by
  unfold snappedW
  have h1 : ⌊rawW inner q⌋ ≤ (inner.width : ℤ) := by
    have h2 := Int.floor_le_floor (rawW_le inner hh (q := q))
    rwa [Int.floor_natCast] at h2
  calc (⌊rawW inner q⌋.toNat / cols) * cols ≤ ⌊rawW inner q⌋.toNat :=
        Nat.div_mul_le_self _ _
    _ ≤ inner.width := Int.toNat_le.mpr h1

theorem snappedH_le (inner : Rect) (rows : ℕ) {q : ℚ} (hq : 0 < q) (hh : inner.height ≠ 0) :
    snappedH inner rows q ≤ inner.height := by
  unfold snappedH
  have h1 : ⌊rawH inner q⌋ ≤ (inner.height : ℤ) := by
    have h2 := Int.floor_le_floor (rawH_le inner hq hh)
    rwa [Int.floor_natCast] at h2
  calc (⌊rawH inner q⌋.toNat / rows) * rows ≤ ⌊rawH inner q⌋.toNat :=
        Nat.div_mul_le_self _ _
    _ ≤ inner.height := Int.toNat_le.mpr h1

/-- Claim C4: for every available rectangle and every positive ratio, the
fitter with the 7 x 6 grid returns a rectangle contained in the available
one whose width is a multiple of 7 and whose height is a multiple of 6
(the zero-size degenerate results satisfy this too). -/
theorem fit_contained (inner : Rect) (ratio_w_over_h : ℚ) (hr : 0 < ratio_w_over_h) :
    containedIn (aspect_fit_center inner 7 6 ratio_w_over_h) inner ∧
    (aspect_fit_center inner 7 6 ratio_w_over_h).width % 7 = 0 ∧
    (aspect_fit_center inner 7 6 ratio_w_over_h).height % 6 = 0 := by
  unfold aspect_fit_center containedIn
  split
  · refine ⟨⟨le_refl _, le_refl _, ?_, ?_⟩, rfl, rfl⟩
    · show inner.x + 0 ≤ inner.x + inner.width
      omega
    · show inner.y + 0 ≤ inner.y + inner.height
      omega
  · rename_i hwh
    push_neg at hwh
    split
    · refine ⟨⟨le_refl _, le_refl _, ?_, ?_⟩, rfl, rfl⟩
      · show inner.x + 0 ≤ inner.x + inner.width
        omega
      · show inner.y + 0 ≤ inner.y + inner.height
        omega
    · have hsw : snappedW inner 7 ratio_w_over_h ≤ inner.width :=
        snappedW_le inner 7 hwh.2
      have hsh : snappedH inner 6 ratio_w_over_h ≤ inner.height :=
        snappedH_le inner 6 hr hwh.2
      refine ⟨⟨?_, ?_, ?_, ?_⟩, Nat.mul_mod_left _ _, Nat.mul_mod_left _ _⟩
      · show inner.x ≤ inner.x + (inner.width - snappedW inner 7 ratio_w_over_h) / 2
        omega
      · show inner.y ≤ inner.y + (inner.height - snappedH inner 6 ratio_w_over_h) / 2
        omega
      · show inner.x + (inner.width - snappedW inner 7 ratio_w_over_h) / 2 +
          snappedW inner 7 ratio_w_over_h ≤ inner.x + inner.width
        omega
      · show inner.y + (inner.height - snappedH inner 6 ratio_w_over_h) / 2 +
          snappedH inner 6 ratio_w_over_h ≤ inner.y + inner.height
        omega

/-- Witness for C4: a 14 x 12 viewport at ratio 1. -/
theorem fit_contained_witness :
    (0 : ℚ) < 1 ∧
      (containedIn (aspect_fit_center ⟨0, 0, 14, 12⟩ 7 6 1) ⟨0, 0, 14, 12⟩ ∧
        (aspect_fit_center ⟨0, 0, 14, 12⟩ 7 6 1).width % 7 = 0 ∧
        (aspect_fit_center ⟨0, 0, 14, 12⟩ 7 6 1).height % 6 = 0) :=
  ⟨by norm_num, fit_contained ⟨0, 0, 14, 12⟩ 1 (by norm_num)⟩

/-- Claim C5: the fitter returns the zero-size rectangle anchored at the
available origin when the available area has zero width or height, and
when either snapped dimension rounds down to zero; in particular a 3 x 3
area cannot hold the 7 x 6 grid, whatever the ratio. -/
theorem fit_degenerate (inner : Rect) (cols rows : ℕ) (ratio_w_over_h : ℚ) :
    (inner.width = 0 ∨ inner.height = 0 →
      aspect_fit_center inner cols rows ratio_w_over_h = ⟨inner.x, inner.y, 0, 0⟩) ∧
    (snappedW inner cols ratio_w_over_h = 0 ∨ snappedH inner rows ratio_w_over_h = 0 →
      aspect_fit_center inner cols rows ratio_w_over_h = ⟨inner.x, inner.y, 0, 0⟩) ∧
    aspect_fit_center ⟨0, 0, 3, 3⟩ 7 6 ratio_w_over_h = ⟨0, 0, 0, 0⟩ := by
  refine ⟨fun h => by unfold aspect_fit_center; rw [if_pos h], fun h => ?_, ?_⟩
  · unfold aspect_fit_center
    split
    · rfl
    · rfl
  · have hsw : snappedW ⟨0, 0, 3, 3⟩ 7 ratio_w_over_h = 0 := by
      have hle : rawW ⟨0, 0, 3, 3⟩ ratio_w_over_h ≤ (3 : ℚ) := by
        unfold rawW areaRatio
        split
        · rename_i hgt
          norm_num at hgt ⊢
          linarith
        · norm_num
      have hfl : ⌊rawW ⟨0, 0, 3, 3⟩ ratio_w_over_h⌋ ≤ 3 := by
        have h2 := Int.floor_le_floor hle
        simpa using h2
      have htn : ⌊rawW ⟨0, 0, 3, 3⟩ ratio_w_over_h⌋.toNat < 7 := by omega
      unfold snappedW
      rw [Nat.div_eq_of_lt htn, Nat.zero_mul]
    unfold aspect_fit_center
    rw [if_neg (by norm_num), if_pos (Or.inl hsw)]

/-- Claim C8: the fitter is deterministic — two calls with identical
arguments return identical rectangles.  (In the source the function takes
a reference to the application state but never reads it, so the embedding
takes no state argument at all: the result is a function of the four
arguments alone.) -/
theorem fit_deterministic (inner : Rect) (cols rows : ℕ) (ratio_w_over_h : ℚ) :
    aspect_fit_center inner cols rows ratio_w_over_h =
      aspect_fit_center inner cols rows ratio_w_over_h := rfl

end C4
